import Mathlib

/-!
Verification of the type-reference lowering core of
`crates/ra_hir_def/src/type_ref.rs`: the `TypeRef`/`TypeBound` IR,
the lowering functions `TypeRef::from_ast`, `TypeRef::from_ast_opt`,
`type_bounds_from_ast`, `TypeBound::from_ast`, and the traversal
`TypeRef::walk`.

The syntax-tree side (`ast::TypeRef`, `ast::TypeBound`, ...) is embedded
as inductive types capturing exactly the accessors the source code reads:
each optional sub-node getter becomes an `Option` field, each node
iterator becomes a `List` field, and each keyword-presence test becomes a
`Bool` field.
-/

namespace RaHirDef

/-- Enum `Mutability` from `type_ref.rs`. -/
inductive Mutability : Type
  | Shared
  | Mut
  deriving Repr, DecidableEq

/-- Source function `Mutability::from_mutable`. -/
def Mutability.from_mutable (mutable : Bool) : Mutability :=
  if mutable then Mutability.Mut else Mutability.Shared

/-- Source function `Mutability::as_keyword_for_ref`. -/
def Mutability.as_keyword_for_ref : Mutability → String
  | Mutability.Shared => ""
  | Mutability.Mut => "mut "

/-- Source function `Mutability::as_keyword_for_ptr`. -/
def Mutability.as_keyword_for_ptr : Mutability → String
  | Mutability.Shared => "const "
  | Mutability.Mut => "mut "

mutual

/-- The `TypeRef` IR enum from `type_ref.rs`. -/
inductive TypeRef : Type
  | Never
  | Placeholder
  | Tuple (types : List TypeRef)
  | Path (path : Path)
  | RawPtr (pointee : TypeRef) (m : Mutability)
  | Reference (referent : TypeRef) (m : Mutability)
  | Array (elem : TypeRef)
  | Slice (elem : TypeRef)
  | Fn (types : List TypeRef)
  | ImplTrait (bounds : List TypeBound)
  | DynTrait (bounds : List TypeBound)
  | Error

/-- The `TypeBound` IR enum from `type_ref.rs`. -/
inductive TypeBound : Type
  | Path (p : Path)
  | Error

/-- Modelled from the spec: the external `crate::path::Path` structure
(its source is not part of this repository). Per the spec it exposes an
optional type-anchor (`TypeRef`), and an ordered list of segments. -/
inductive Path : Type
  | mk (type_anchor : Option TypeRef) (segments : List PathSegment)

/-- Modelled from the spec: a path segment, carrying optional generic
arguments and associated-type bindings. -/
inductive PathSegment : Type
  | mk (args_and_bindings : Option GenericArgsAndBindings)

/-- Modelled from the spec: the generic arguments and associated-type
bindings attached to a path segment: an ordered list of type arguments
and an ordered list of (name, bound type) bindings. -/
inductive GenericArgsAndBindings : Type
  | mk (args : List GenericArg) (bindings : List (String × TypeRef))

/-- Modelled from the spec: a generic argument; the source's
`crate::path::GenericArg` has the single variant `Type`. -/
inductive GenericArg : Type
  | Type (t : TypeRef)

end

/-- Accessor `Path::type_anchor` (read-only). -/
def Path.type_anchor : Path → Option TypeRef
  | Path.mk a _ => a

/-- Accessor `Path::segments` (read-only). -/
def Path.segments : Path → List PathSegment
  | Path.mk _ s => s

/-- Field `args_and_bindings` of a path segment. -/
def PathSegment.args_and_bindings : PathSegment → Option GenericArgsAndBindings
  | PathSegment.mk a => a

/-- Field `args` of the generic-arguments record. -/
def GenericArgsAndBindings.args : GenericArgsAndBindings → List GenericArg
  | GenericArgsAndBindings.mk a _ => a

/-- Field `bindings` of the generic-arguments record. -/
def GenericArgsAndBindings.bindings : GenericArgsAndBindings → List (String × TypeRef)
  | GenericArgsAndBindings.mk _ b => b

/-- Modelled from the spec: an `ast::Path` syntax node is opaque here; the
only operation the lowering performs on it is `Path::from_ast`, which
"may fail to produce a path for malformed syntax". We therefore embed an
`ast::Path` as the `Option Path` outcome of that external call. -/
structure AstPath : Type where
  lowered : Option Path

/-- Modelled from the spec: `Path::from_ast(syntax_path_node) -> Option<Path>`
(external to this repository; its behavior on an opaque syntax node is
exactly the recorded outcome). -/
def Path.from_ast (node : AstPath) : Option Path :=
  node.lowered

/-- Syntax node `ast::TypeBound` as read by `TypeBound::from_ast`: `node.kind()`
distinguishes a trait-path bound (with optional path), a higher-ranked
`for` bound, and a lifetime bound. -/
inductive AstTypeBound : Type
  | PathType (path : Option AstPath)
  | ForType
  | Lifetime

/-- Syntax node `ast::TypeBoundList`: its `bounds()` iterator. -/
structure AstTypeBoundList : Type where
  bounds : List AstTypeBound

/-- Syntax node `ast::TypeRef` as read by `TypeRef::from_ast`: one constructor per
syntactic kind, with the sub-node accessors the code uses. For
`FnPointerType`, `ret_type` is `inner.ret_type()` and the inner `Option`
is `rt.type_ref()`; `param_list` is `inner.param_list()` and each list
element is a parameter's `ascribed_type()`. -/
inductive AstTypeRef : Type
  | ParenType (type_ref : Option AstTypeRef)
  | TupleType (fields : List AstTypeRef)
  | NeverType
  | PathType (path : Option AstPath)
  | PointerType (type_ref : Option AstTypeRef) (mut_token : Bool)
  | ArrayType (type_ref : Option AstTypeRef)
  | SliceType (type_ref : Option AstTypeRef)
  | ReferenceType (type_ref : Option AstTypeRef) (mut_token : Bool)
  | PlaceholderType
  | FnPointerType (ret_type : Option (Option AstTypeRef))
      (param_list : Option (List (Option AstTypeRef)))
  | ForType (type_ref : Option AstTypeRef)
  | ImplTraitType (type_bound_list : Option AstTypeBoundList)
  | DynTraitType (type_bound_list : Option AstTypeBoundList)

/-- Source function `TypeBound::from_ast`. -/
def TypeBound.from_ast (node : AstTypeBound) : TypeBound :=
  match node with
  | AstTypeBound.PathType path_type =>
    match path_type with
    | none => TypeBound.Error
    | some path =>
      match Path.from_ast path with
      | none => TypeBound.Error
      | some path => TypeBound.Path path
  | AstTypeBound.ForType => TypeBound.Error
  | AstTypeBound.Lifetime => TypeBound.Error

/-- Source function `type_bounds_from_ast`. -/
def type_bounds_from_ast (type_bounds_opt : Option AstTypeBoundList) : List TypeBound :=
  match type_bounds_opt with
  | some type_bounds => type_bounds.bounds.map TypeBound.from_ast
  | none => []

mutual

/-- Source function `TypeRef::from_ast`: total dispatch over the syntactic kind. -/
def TypeRef.from_ast (node : AstTypeRef) : TypeRef :=
  match node with
  | AstTypeRef.ParenType inner => TypeRef.from_ast_opt inner
  | AstTypeRef.TupleType fields => TypeRef.Tuple (TypeRef.from_ast_list fields)
  | AstTypeRef.NeverType => TypeRef.Never
  | AstTypeRef.PathType inner =>
    match inner with
    | some p =>
      match Path.from_ast p with
      | some path => TypeRef.Path path
      | none => TypeRef.Error
    | none => TypeRef.Error
  | AstTypeRef.PointerType inner mut_token =>
    TypeRef.RawPtr (TypeRef.from_ast_opt inner) (Mutability.from_mutable mut_token)
  | AstTypeRef.ArrayType inner => TypeRef.Array (TypeRef.from_ast_opt inner)
  | AstTypeRef.SliceType inner => TypeRef.Slice (TypeRef.from_ast_opt inner)
  | AstTypeRef.ReferenceType inner mut_token =>
    TypeRef.Reference (TypeRef.from_ast_opt inner) (Mutability.from_mutable mut_token)
  | AstTypeRef.PlaceholderType => TypeRef.Placeholder
  | AstTypeRef.FnPointerType ret_type param_list =>
    let ret_ty : TypeRef :=
      match ret_type with
      | some (some rt) => TypeRef.from_ast rt
      | some none => TypeRef.Tuple []
      | none => TypeRef.Tuple []
    let params : List TypeRef :=
      match param_list with
      | some pl => TypeRef.from_ast_opt_list pl
      | none => []
    TypeRef.Fn (params ++ [ret_ty])
  | AstTypeRef.ForType inner => TypeRef.from_ast_opt inner
  | AstTypeRef.ImplTraitType inner =>
    TypeRef.ImplTrait (type_bounds_from_ast inner)
  | AstTypeRef.DynTraitType inner =>
    TypeRef.DynTrait (type_bounds_from_ast inner)

/-- Source function `TypeRef::from_ast_opt`. -/
def TypeRef.from_ast_opt (node : Option AstTypeRef) : TypeRef :=
  match node with
  | some node => TypeRef.from_ast node
  | none => TypeRef.Error

/-- Collect step `fields().map(TypeRef::from_ast).collect()` (tuple fields). -/
def TypeRef.from_ast_list (nodes : List AstTypeRef) : List TypeRef :=
  match nodes with
  | [] => []
  | n :: ns => TypeRef.from_ast n :: TypeRef.from_ast_list ns

/-- Collect step `params().map(|p| p.ascribed_type()).map(TypeRef::from_ast_opt).collect()`
(function-pointer parameters). -/
def TypeRef.from_ast_opt_list (nodes : List (Option AstTypeRef)) : List TypeRef :=
  match nodes with
  | [] => []
  | n :: ns => TypeRef.from_ast_opt n :: TypeRef.from_ast_opt_list ns

end

/-- Source function `TypeRef::unit`. -/
def TypeRef.unit : TypeRef :=
  TypeRef.Tuple []

mutual

/-- Inner function `go` of `TypeRef::walk`, embedded as the list of nodes
passed to the callback, in invocation order: the node itself first
(`f(type_ref)`), then the visits produced while descending into the
payload. -/
def TypeRef.go : TypeRef → List TypeRef
  | TypeRef.Never => [TypeRef.Never]
  | TypeRef.Placeholder => [TypeRef.Placeholder]
  | TypeRef.Error => [TypeRef.Error]
  | TypeRef.Tuple types => TypeRef.Tuple types :: TypeRef.goList types
  | TypeRef.Fn types => TypeRef.Fn types :: TypeRef.goList types
  | TypeRef.RawPtr t m => TypeRef.RawPtr t m :: TypeRef.go t
  | TypeRef.Reference t m => TypeRef.Reference t m :: TypeRef.go t
  | TypeRef.Array t => TypeRef.Array t :: TypeRef.go t
  | TypeRef.Slice t => TypeRef.Slice t :: TypeRef.go t
  | TypeRef.ImplTrait bounds => TypeRef.ImplTrait bounds :: TypeRef.goBounds bounds
  | TypeRef.DynTrait bounds => TypeRef.DynTrait bounds :: TypeRef.goBounds bounds
  | TypeRef.Path p => TypeRef.Path p :: TypeRef.go_path p

/-- Iteration `types.iter().for_each(|t| go(t, f))` over a payload list. -/
def TypeRef.goList : List TypeRef → List TypeRef
  | [] => []
  | t :: ts => TypeRef.go t ++ TypeRef.goList ts

/-- Loop over a bound list inside `go`: a `Path` bound descends via
`go_path`, an `Error` bound contributes nothing. -/
def TypeRef.goBounds : List TypeBound → List TypeRef
  | [] => []
  | TypeBound.Path p :: bs => TypeRef.go_path p ++ TypeRef.goBounds bs
  | TypeBound.Error :: bs => TypeRef.goBounds bs

/-- Inner function `go_path` of `TypeRef::walk`: type-anchor first (when
present), then every segment in order. -/
def TypeRef.go_path : RaHirDef.Path → List TypeRef
  | Path.mk anchor segments =>
    (match anchor with
     | some t => TypeRef.go t
     | none => []) ++ TypeRef.goSegments segments

/-- Loop `for segment in path.segments().iter()` of `go_path`. -/
def TypeRef.goSegments : List PathSegment → List TypeRef
  | [] => []
  | PathSegment.mk none :: ss => TypeRef.goSegments ss
  | PathSegment.mk (some (GenericArgsAndBindings.mk args bindings)) :: ss =>
    TypeRef.goArgs args ++ TypeRef.goBindings bindings ++ TypeRef.goSegments ss

/-- Loop `for arg in &args_and_bindings.args` of `go_path`. -/
def TypeRef.goArgs : List GenericArg → List TypeRef
  | [] => []
  | GenericArg.Type t :: rest => TypeRef.go t ++ TypeRef.goArgs rest

/-- Loop `for (_, type_ref) in &args_and_bindings.bindings` of `go_path`. -/
def TypeRef.goBindings : List (String × TypeRef) → List TypeRef
  | [] => []
  | (_, t) :: rest => TypeRef.go t ++ TypeRef.goBindings rest

end

/-- Source function `TypeRef::walk`, as the ordered list of nodes the
callback is invoked on. -/
def TypeRef.walk (t : TypeRef) : List TypeRef :=
  TypeRef.go t

mutual

/-- Number of `TypeRef` nodes in a tree: one for the root plus the nodes
of every nested `TypeRef`, including those embedded in an owned `Path`
(type-anchor, generic type arguments, associated-type bindings). -/
def TypeRef.size : TypeRef → Nat
  | TypeRef.Never => 1
  | TypeRef.Placeholder => 1
  | TypeRef.Error => 1
  | TypeRef.Tuple types => TypeRef.sizeList types + 1
  | TypeRef.Fn types => TypeRef.sizeList types + 1
  | TypeRef.RawPtr t _ => TypeRef.size t + 1
  | TypeRef.Reference t _ => TypeRef.size t + 1
  | TypeRef.Array t => TypeRef.size t + 1
  | TypeRef.Slice t => TypeRef.size t + 1
  | TypeRef.ImplTrait bounds => TypeRef.sizeBounds bounds + 1
  | TypeRef.DynTrait bounds => TypeRef.sizeBounds bounds + 1
  | TypeRef.Path p => TypeRef.sizePath p + 1

/-- Total node count of a list of trees. -/
def TypeRef.sizeList : List TypeRef → Nat
  | [] => 0
  | t :: ts => TypeRef.size t + TypeRef.sizeList ts

/-- Total node count of the trees embedded in a bound list. -/
def TypeRef.sizeBounds : List TypeBound → Nat
  | [] => 0
  | TypeBound.Path p :: bs => TypeRef.sizePath p + TypeRef.sizeBounds bs
  | TypeBound.Error :: bs => TypeRef.sizeBounds bs

/-- Total node count of the trees embedded in a path. -/
def TypeRef.sizePath : RaHirDef.Path → Nat
  | Path.mk anchor segments =>
    (match anchor with
     | some t => TypeRef.size t
     | none => 0) + TypeRef.sizeSegments segments

/-- Total node count of the trees embedded in a segment list. -/
def TypeRef.sizeSegments : List PathSegment → Nat
  | [] => 0
  | PathSegment.mk none :: ss => TypeRef.sizeSegments ss
  | PathSegment.mk (some (GenericArgsAndBindings.mk args bindings)) :: ss =>
    TypeRef.sizeArgs args + TypeRef.sizeBindings bindings + TypeRef.sizeSegments ss

/-- Total node count of the trees embedded in a generic-argument list. -/
def TypeRef.sizeArgs : List GenericArg → Nat
  | [] => 0
  | GenericArg.Type t :: rest => TypeRef.size t + TypeRef.sizeArgs rest

/-- Total node count of the trees embedded in a binding list. -/
def TypeRef.sizeBindings : List (String × TypeRef) → Nat
  | [] => 0
  | (_, t) :: rest => TypeRef.size t + TypeRef.sizeBindings rest

end

/-- A `TypeRef` directly embedded in one of the segments of a segment
list: through a segment's generic type arguments or associated-type
bindings. -/
def segsDirect (ss : List PathSegment) (t : TypeRef) : Prop :=
  ∃ seg ∈ ss, ∃ args bnds,
    seg = PathSegment.mk (some (GenericArgsAndBindings.mk args bnds)) ∧
    (GenericArg.Type t ∈ args ∨ ∃ nm, (nm, t) ∈ bnds)

/-- A `TypeRef` directly embedded in a `Path`: its type-anchor, or a
generic type argument or associated-type binding of one of its
segments. -/
def Path.hasDirect : RaHirDef.Path → TypeRef → Prop
  | Path.mk anchor ss, t => anchor = some t ∨ segsDirect ss t

/-- One-step child relation on the IR: `Child t u` holds when `t` is a
`TypeRef` directly owned by `u`, including through a `Path` owned by a
`Path`, `ImplTrait` or `DynTrait` variant. -/
inductive TypeRef.Child : TypeRef → TypeRef → Prop
  | tuple {t : TypeRef} {ts : List TypeRef} (h : t ∈ ts) :
      TypeRef.Child t (TypeRef.Tuple ts)
  | fn {t : TypeRef} {ts : List TypeRef} (h : t ∈ ts) :
      TypeRef.Child t (TypeRef.Fn ts)
  | rawPtr {t : TypeRef} {m : Mutability} : TypeRef.Child t (TypeRef.RawPtr t m)
  | ref {t : TypeRef} {m : Mutability} : TypeRef.Child t (TypeRef.Reference t m)
  | array {t : TypeRef} : TypeRef.Child t (TypeRef.Array t)
  | slice {t : TypeRef} : TypeRef.Child t (TypeRef.Slice t)
  | implTrait {t : TypeRef} {p : RaHirDef.Path} {bs : List TypeBound}
      (hb : TypeBound.Path p ∈ bs) (h : Path.hasDirect p t) :
      TypeRef.Child t (TypeRef.ImplTrait bs)
  | dynTrait {t : TypeRef} {p : RaHirDef.Path} {bs : List TypeBound}
      (hb : TypeBound.Path p ∈ bs) (h : Path.hasDirect p t) :
      TypeRef.Child t (TypeRef.DynTrait bs)
  | path {t : TypeRef} {p : RaHirDef.Path} (h : Path.hasDirect p t) :
      TypeRef.Child t (TypeRef.Path p)

/-- Source function `TypeBound::as_path`. -/
def TypeBound.as_path : TypeBound → Option RaHirDef.Path
  | TypeBound.Path p => some p
  | TypeBound.Error => none

/-- Tuple-field collection agrees with `List.map`. -/
theorem TypeRef.from_ast_list_eq_map (l : List AstTypeRef) :
    TypeRef.from_ast_list l = l.map TypeRef.from_ast := by
  induction l with
  | nil => simp [TypeRef.from_ast_list]
  | cons n ns ih => simp [TypeRef.from_ast_list, ih]

/-- Parameter collection agrees with `List.map`. -/
theorem TypeRef.from_ast_opt_list_eq_map (l : List (Option AstTypeRef)) :
    TypeRef.from_ast_opt_list l = l.map TypeRef.from_ast_opt := by
  induction l with
  | nil => simp [TypeRef.from_ast_opt_list]
  | cons n ns ih => simp [TypeRef.from_ast_opt_list, ih]

/-- The payload-list loop of `go` concatenates the per-element visit
lists in order. -/
theorem TypeRef.goList_eq_join (ts : List TypeRef) :
    TypeRef.goList ts = (ts.map TypeRef.go).flatten := by
  induction ts with
  | nil => simp [TypeRef.goList]
  | cons t ts ih => simp [TypeRef.goList, ih]

/-- The bound-list loop of `go` concatenates per-bound visit lists in
order; an `Error` bound contributes nothing. -/
theorem TypeRef.goBounds_eq_join (bs : List TypeBound) :
    TypeRef.goBounds bs =
      (bs.map fun b =>
        match b with
        | TypeBound.Path p => TypeRef.go_path p
        | TypeBound.Error => []).flatten := by
  induction bs with
  | nil => simp [TypeRef.goBounds]
  | cons b bs ih =>
    cases b with
    | Path p => simp [TypeRef.goBounds, ih]
    | Error => simp [TypeRef.goBounds, ih]

/-- The generic-argument loop of `go_path` concatenates per-argument
visit lists in order. -/
theorem TypeRef.goArgs_eq_join (args : List GenericArg) :
    TypeRef.goArgs args =
      (args.map fun a =>
        match a with
        | GenericArg.Type t => TypeRef.go t).flatten := by
  induction args with
  | nil => simp [TypeRef.goArgs]
  | cons a rest ih =>
    rcases a with ⟨t⟩
    simp [TypeRef.goArgs, ih]

/-- The binding loop of `go_path` concatenates the visit lists of the
bound types in order. -/
theorem TypeRef.goBindings_eq_join (bnds : List (String × TypeRef)) :
    TypeRef.goBindings bnds = (bnds.map fun nb => TypeRef.go nb.2).flatten := by
  induction bnds with
  | nil => simp [TypeRef.goBindings]
  | cons nb rest ih =>
    cases nb with
    | mk nm t => simp [TypeRef.goBindings, ih]

/-- The segment loop of `go_path` concatenates, per segment in order, the
argument visits followed by the binding visits. -/
theorem TypeRef.goSegments_eq_join (ss : List PathSegment) :
    TypeRef.goSegments ss =
      (ss.map fun seg =>
        match seg with
        | PathSegment.mk none => []
        | PathSegment.mk (some (GenericArgsAndBindings.mk args bnds)) =>
          TypeRef.goArgs args ++ TypeRef.goBindings bnds).flatten := by
  induction ss with
  | nil => simp [TypeRef.goSegments]
  | cons s ss ih =>
    cases s with
    | mk gab =>
      cases gab with
      | none => simp [TypeRef.goSegments, ih]
      | some g =>
        cases g with
        | mk args bnds => simp [TypeRef.goSegments, ih]

mutual

/-- Each node of the tree contributes exactly one visit to `go`. -/
theorem TypeRef.go_length : (t : TypeRef) → (TypeRef.go t).length = TypeRef.size t
  | TypeRef.Never => by simp [TypeRef.go, TypeRef.size]
  | TypeRef.Placeholder => by simp [TypeRef.go, TypeRef.size]
  | TypeRef.Error => by simp [TypeRef.go, TypeRef.size]
  | TypeRef.Tuple types => by
    simp [TypeRef.go, TypeRef.size, TypeRef.goList_length types]
  | TypeRef.Fn types => by
    simp [TypeRef.go, TypeRef.size, TypeRef.goList_length types]
  | TypeRef.RawPtr t m => by
    simp [TypeRef.go, TypeRef.size, TypeRef.go_length t]
  | TypeRef.Reference t m => by
    simp [TypeRef.go, TypeRef.size, TypeRef.go_length t]
  | TypeRef.Array t => by
    simp [TypeRef.go, TypeRef.size, TypeRef.go_length t]
  | TypeRef.Slice t => by
    simp [TypeRef.go, TypeRef.size, TypeRef.go_length t]
  | TypeRef.ImplTrait bounds => by
    simp [TypeRef.go, TypeRef.size, TypeRef.goBounds_length bounds]
  | TypeRef.DynTrait bounds => by
    simp [TypeRef.go, TypeRef.size, TypeRef.goBounds_length bounds]
  | TypeRef.Path p => by
    simp [TypeRef.go, TypeRef.size, TypeRef.go_path_length p]

/-- List version of `go_length`. -/
theorem TypeRef.goList_length : (ts : List TypeRef) →
    (TypeRef.goList ts).length = TypeRef.sizeList ts
  | [] => by simp [TypeRef.goList, TypeRef.sizeList]
  | t :: ts => by
    simp [TypeRef.goList, TypeRef.sizeList, TypeRef.go_length t,
      TypeRef.goList_length ts]

/-- Bound-list version of `go_length`. -/
theorem TypeRef.goBounds_length : (bs : List TypeBound) →
    (TypeRef.goBounds bs).length = TypeRef.sizeBounds bs
  | [] => by simp [TypeRef.goBounds, TypeRef.sizeBounds]
  | TypeBound.Path p :: bs => by
    simp [TypeRef.goBounds, TypeRef.sizeBounds, TypeRef.go_path_length p,
      TypeRef.goBounds_length bs]
  | TypeBound.Error :: bs => by
    simp [TypeRef.goBounds, TypeRef.sizeBounds, TypeRef.goBounds_length bs]

/-- Path version of `go_length`. -/
theorem TypeRef.go_path_length : (p : RaHirDef.Path) →
    (TypeRef.go_path p).length = TypeRef.sizePath p
  | Path.mk none segments => by
    simp [TypeRef.go_path, TypeRef.sizePath, TypeRef.goSegments_length segments]
  | Path.mk (some t) segments => by
    simp [TypeRef.go_path, TypeRef.sizePath, TypeRef.go_length t,
      TypeRef.goSegments_length segments]

/-- Segment-list version of `go_length`. -/
theorem TypeRef.goSegments_length : (ss : List PathSegment) →
    (TypeRef.goSegments ss).length = TypeRef.sizeSegments ss
  | [] => by simp [TypeRef.goSegments, TypeRef.sizeSegments]
  | PathSegment.mk none :: ss => by
    simp [TypeRef.goSegments, TypeRef.sizeSegments, TypeRef.goSegments_length ss]
  | PathSegment.mk (some (GenericArgsAndBindings.mk args bindings)) :: ss => by
    simp [TypeRef.goSegments, TypeRef.sizeSegments, TypeRef.goArgs_length args,
      TypeRef.goBindings_length bindings, TypeRef.goSegments_length ss]
    omega

/-- Argument-list version of `go_length`. -/
theorem TypeRef.goArgs_length : (args : List GenericArg) →
    (TypeRef.goArgs args).length = TypeRef.sizeArgs args
  | [] => by simp [TypeRef.goArgs, TypeRef.sizeArgs]
  | GenericArg.Type t :: rest => by
    simp [TypeRef.goArgs, TypeRef.sizeArgs, TypeRef.go_length t,
      TypeRef.goArgs_length rest]

/-- Binding-list version of `go_length`. -/
theorem TypeRef.goBindings_length : (bnds : List (String × TypeRef)) →
    (TypeRef.goBindings bnds).length = TypeRef.sizeBindings bnds
  | [] => by simp [TypeRef.goBindings, TypeRef.sizeBindings]
  | (nm, t) :: rest => by
    simp [TypeRef.goBindings, TypeRef.sizeBindings, TypeRef.go_length t,
      TypeRef.goBindings_length rest]

end

/-- Every visit list starts with the root node itself. -/
theorem TypeRef.go_head : ∀ t : TypeRef, ∃ rest, TypeRef.go t = t :: rest := by
  intro t
  cases t <;> simp [TypeRef.go]

/-- The root is among its own visits. -/
theorem TypeRef.self_mem_go (t : TypeRef) : t ∈ TypeRef.go t := by
  obtain ⟨rest, h⟩ := TypeRef.go_head t
  simp [h]

/-- A list element is visited by the payload-list loop. -/
theorem TypeRef.mem_goList {t : TypeRef} {ts : List TypeRef} (h : t ∈ ts) :
    t ∈ TypeRef.goList ts := by
  rw [TypeRef.goList_eq_join]
  exact List.mem_flatten.2 ⟨TypeRef.go t, List.mem_map_of_mem _ h, TypeRef.self_mem_go t⟩

/-- A generic type argument is visited by the argument loop. -/
theorem TypeRef.mem_goArgs {t : TypeRef} {args : List GenericArg}
    (h : GenericArg.Type t ∈ args) : t ∈ TypeRef.goArgs args := by
  rw [TypeRef.goArgs_eq_join]
  refine List.mem_flatten.2 ⟨TypeRef.go t, ?_, TypeRef.self_mem_go t⟩
  exact List.mem_map.2 ⟨GenericArg.Type t, h, rfl⟩

/-- An associated-type binding's bound type is visited by the binding
loop. -/
theorem TypeRef.mem_goBindings {t : TypeRef} {bnds : List (String × TypeRef)}
    {nm : String} (h : (nm, t) ∈ bnds) : t ∈ TypeRef.goBindings bnds := by
  rw [TypeRef.goBindings_eq_join]
  refine List.mem_flatten.2 ⟨TypeRef.go t, ?_, TypeRef.self_mem_go t⟩
  exact List.mem_map.2 ⟨(nm, t), h, rfl⟩

/-- A type embedded in some segment is visited by the segment loop. -/
theorem TypeRef.mem_goSegments {t : TypeRef} {ss : List PathSegment}
    (h : segsDirect ss t) : t ∈ TypeRef.goSegments ss := by
  obtain ⟨seg, hseg, args, bnds, rfl, hin⟩ := h
  rw [TypeRef.goSegments_eq_join]
  refine List.mem_flatten.2 ⟨TypeRef.goArgs args ++ TypeRef.goBindings bnds, ?_, ?_⟩
  · exact List.mem_map.2
      ⟨PathSegment.mk (some (GenericArgsAndBindings.mk args bnds)), hseg, rfl⟩
  · rcases hin with h | ⟨nm, h⟩
    · exact List.mem_append_left _ (TypeRef.mem_goArgs h)
    · exact List.mem_append_right _ (TypeRef.mem_goBindings h)

/-- A type directly embedded in a path is visited by `go_path`. -/
theorem TypeRef.mem_go_path {t : TypeRef} {p : RaHirDef.Path}
    (h : Path.hasDirect p t) : t ∈ TypeRef.go_path p := by
  obtain ⟨anchor, ss⟩ := p
  rcases h with rfl | h
  · simp only [TypeRef.go_path]
    exact List.mem_append_left _ (TypeRef.self_mem_go t)
  · cases anchor <;>
    · simp only [TypeRef.go_path]
      exact List.mem_append_right _ (TypeRef.mem_goSegments h)

/-- A type embedded in a `Path` bound of a bound list is visited by the
bound loop. -/
theorem TypeRef.mem_goBounds {t : TypeRef} {p : RaHirDef.Path}
    {bs : List TypeBound} (hb : TypeBound.Path p ∈ bs)
    (h : Path.hasDirect p t) : t ∈ TypeRef.goBounds bs := by
  rw [TypeRef.goBounds_eq_join]
  refine List.mem_flatten.2 ⟨TypeRef.go_path p, ?_, TypeRef.mem_go_path h⟩
  exact List.mem_map.2 ⟨TypeBound.Path p, hb, rfl⟩

/-- Every direct child of a node is among the node's visits. -/
theorem TypeRef.child_mem_go {t u : TypeRef} (h : TypeRef.Child t u) :
    t ∈ TypeRef.go u := by
  cases h with
  | tuple h => exact List.mem_cons_of_mem _ (TypeRef.mem_goList h)
  | fn h => exact List.mem_cons_of_mem _ (TypeRef.mem_goList h)
  | rawPtr => exact List.mem_cons_of_mem _ (TypeRef.self_mem_go _)
  | ref => exact List.mem_cons_of_mem _ (TypeRef.self_mem_go _)
  | array => exact List.mem_cons_of_mem _ (TypeRef.self_mem_go _)
  | slice => exact List.mem_cons_of_mem _ (TypeRef.self_mem_go _)
  | implTrait hb h => exact List.mem_cons_of_mem _ (TypeRef.mem_goBounds hb h)
  | dynTrait hb h => exact List.mem_cons_of_mem _ (TypeRef.mem_goBounds hb h)
  | path h => exact List.mem_cons_of_mem _ (TypeRef.mem_go_path h)

mutual

/-- Visits are closed under taking visits of visited nodes. -/
theorem TypeRef.go_trans : (root : TypeRef) → ∀ u, u ∈ TypeRef.go root →
    ∀ x, x ∈ TypeRef.go u → x ∈ TypeRef.go root
  | TypeRef.Never => by
    intro u hu x hx
    simp only [TypeRef.go, List.mem_singleton] at hu
    subst hu; exact hx
  | TypeRef.Placeholder => by
    intro u hu x hx
    simp only [TypeRef.go, List.mem_singleton] at hu
    subst hu; exact hx
  | TypeRef.Error => by
    intro u hu x hx
    simp only [TypeRef.go, List.mem_singleton] at hu
    subst hu; exact hx
  | TypeRef.Tuple ts => by
    intro u hu x hx
    simp only [TypeRef.go, List.mem_cons] at hu ⊢
    rcases hu with rfl | hu
    · simpa [TypeRef.go] using hx
    · exact Or.inr (TypeRef.goList_trans ts u hu x hx)
  | TypeRef.Fn ts => by
    intro u hu x hx
    simp only [TypeRef.go, List.mem_cons] at hu ⊢
    rcases hu with rfl | hu
    · simpa [TypeRef.go] using hx
    · exact Or.inr (TypeRef.goList_trans ts u hu x hx)
  | TypeRef.RawPtr t m => by
    intro u hu x hx
    simp only [TypeRef.go, List.mem_cons] at hu ⊢
    rcases hu with rfl | hu
    · simpa [TypeRef.go] using hx
    · exact Or.inr (TypeRef.go_trans t u hu x hx)
  | TypeRef.Reference t m => by
    intro u hu x hx
    simp only [TypeRef.go, List.mem_cons] at hu ⊢
    rcases hu with rfl | hu
    · simpa [TypeRef.go] using hx
    · exact Or.inr (TypeRef.go_trans t u hu x hx)
  | TypeRef.Array t => by
    intro u hu x hx
    simp only [TypeRef.go, List.mem_cons] at hu ⊢
    rcases hu with rfl | hu
    · simpa [TypeRef.go] using hx
    · exact Or.inr (TypeRef.go_trans t u hu x hx)
  | TypeRef.Slice t => by
    intro u hu x hx
    simp only [TypeRef.go, List.mem_cons] at hu ⊢
    rcases hu with rfl | hu
    · simpa [TypeRef.go] using hx
    · exact Or.inr (TypeRef.go_trans t u hu x hx)
  | TypeRef.ImplTrait bs => by
    intro u hu x hx
    simp only [TypeRef.go, List.mem_cons] at hu ⊢
    rcases hu with rfl | hu
    · simpa [TypeRef.go] using hx
    · exact Or.inr (TypeRef.goBounds_trans bs u hu x hx)
  | TypeRef.DynTrait bs => by
    intro u hu x hx
    simp only [TypeRef.go, List.mem_cons] at hu ⊢
    rcases hu with rfl | hu
    · simpa [TypeRef.go] using hx
    · exact Or.inr (TypeRef.goBounds_trans bs u hu x hx)
  | TypeRef.Path p => by
    intro u hu x hx
    simp only [TypeRef.go, List.mem_cons] at hu ⊢
    rcases hu with rfl | hu
    · simpa [TypeRef.go] using hx
    · exact Or.inr (TypeRef.go_path_trans p u hu x hx)

/-- List version of `go_trans`. -/
theorem TypeRef.goList_trans : (ts : List TypeRef) → ∀ u, u ∈ TypeRef.goList ts →
    ∀ x, x ∈ TypeRef.go u → x ∈ TypeRef.goList ts
  | [] => by intro u hu; simp [TypeRef.goList] at hu
  | t :: ts => by
    intro u hu x hx
    simp only [TypeRef.goList, List.mem_append] at hu ⊢
    rcases hu with hu | hu
    · exact Or.inl (TypeRef.go_trans t u hu x hx)
    · exact Or.inr (TypeRef.goList_trans ts u hu x hx)

/-- Bound-list version of `go_trans`. -/
theorem TypeRef.goBounds_trans : (bs : List TypeBound) → ∀ u, u ∈ TypeRef.goBounds bs →
    ∀ x, x ∈ TypeRef.go u → x ∈ TypeRef.goBounds bs
  | [] => by intro u hu; simp [TypeRef.goBounds] at hu
  | TypeBound.Path p :: bs => by
    intro u hu x hx
    simp only [TypeRef.goBounds, List.mem_append] at hu ⊢
    rcases hu with hu | hu
    · exact Or.inl (TypeRef.go_path_trans p u hu x hx)
    · exact Or.inr (TypeRef.goBounds_trans bs u hu x hx)
  | TypeBound.Error :: bs => by
    intro u hu x hx
    simp only [TypeRef.goBounds] at hu ⊢
    exact TypeRef.goBounds_trans bs u hu x hx

/-- Path version of `go_trans`. -/
theorem TypeRef.go_path_trans : (p : RaHirDef.Path) → ∀ u, u ∈ TypeRef.go_path p →
    ∀ x, x ∈ TypeRef.go u → x ∈ TypeRef.go_path p
  | Path.mk none ss => by
    intro u hu x hx
    simp only [TypeRef.go_path, List.nil_append] at hu ⊢
    exact TypeRef.goSegments_trans ss u hu x hx
  | Path.mk (some t) ss => by
    intro u hu x hx
    simp only [TypeRef.go_path, List.mem_append] at hu ⊢
    rcases hu with hu | hu
    · exact Or.inl (TypeRef.go_trans t u hu x hx)
    · exact Or.inr (TypeRef.goSegments_trans ss u hu x hx)

/-- Segment-list version of `go_trans`. -/
theorem TypeRef.goSegments_trans : (ss : List PathSegment) →
    ∀ u, u ∈ TypeRef.goSegments ss → ∀ x, x ∈ TypeRef.go u → x ∈ TypeRef.goSegments ss
  | [] => by intro u hu; simp [TypeRef.goSegments] at hu
  | PathSegment.mk none :: ss => by
    intro u hu x hx
    simp only [TypeRef.goSegments] at hu ⊢
    exact TypeRef.goSegments_trans ss u hu x hx
  | PathSegment.mk (some (GenericArgsAndBindings.mk args bnds)) :: ss => by
    intro u hu x hx
    simp only [TypeRef.goSegments, List.mem_append] at hu ⊢
    rcases hu with (hu | hu) | hu
    · exact Or.inl (Or.inl (TypeRef.goArgs_trans args u hu x hx))
    · exact Or.inl (Or.inr (TypeRef.goBindings_trans bnds u hu x hx))
    · exact Or.inr (TypeRef.goSegments_trans ss u hu x hx)

/-- Argument-list version of `go_trans`. -/
theorem TypeRef.goArgs_trans : (args : List GenericArg) →
    ∀ u, u ∈ TypeRef.goArgs args → ∀ x, x ∈ TypeRef.go u → x ∈ TypeRef.goArgs args
  | [] => by intro u hu; simp [TypeRef.goArgs] at hu
  | GenericArg.Type t :: rest => by
    intro u hu x hx
    simp only [TypeRef.goArgs, List.mem_append] at hu ⊢
    rcases hu with hu | hu
    · exact Or.inl (TypeRef.go_trans t u hu x hx)
    · exact Or.inr (TypeRef.goArgs_trans rest u hu x hx)

/-- Binding-list version of `go_trans`. -/
theorem TypeRef.goBindings_trans : (bnds : List (String × TypeRef)) →
    ∀ u, u ∈ TypeRef.goBindings bnds → ∀ x, x ∈ TypeRef.go u → x ∈ TypeRef.goBindings bnds
  | [] => by intro u hu; simp [TypeRef.goBindings] at hu
  | (nm, t) :: rest => by
    intro u hu x hx
    simp only [TypeRef.goBindings, List.mem_append] at hu ⊢
    rcases hu with hu | hu
    · exact Or.inl (TypeRef.go_trans t u hu x hx)
    · exact Or.inr (TypeRef.goBindings_trans rest u hu x hx)

end

mutual

/-- Every visited node is transitively reachable from the root through
the `Child` relation. -/
theorem TypeRef.mem_go_reaches : (root : TypeRef) → ∀ x, x ∈ TypeRef.go root →
    Relation.ReflTransGen TypeRef.Child x root
  | TypeRef.Never => by
    intro x hx
    simp only [TypeRef.go, List.mem_singleton] at hx
    subst hx; exact Relation.ReflTransGen.refl
  | TypeRef.Placeholder => by
    intro x hx
    simp only [TypeRef.go, List.mem_singleton] at hx
    subst hx; exact Relation.ReflTransGen.refl
  | TypeRef.Error => by
    intro x hx
    simp only [TypeRef.go, List.mem_singleton] at hx
    subst hx; exact Relation.ReflTransGen.refl
  | TypeRef.Tuple ts => by
    intro x hx
    simp only [TypeRef.go, List.mem_cons] at hx
    rcases hx with rfl | hx
    · exact Relation.ReflTransGen.refl
    · obtain ⟨u, hu, hr⟩ := TypeRef.goList_reaches ts x hx
      exact hr.tail (TypeRef.Child.tuple hu)
  | TypeRef.Fn ts => by
    intro x hx
    simp only [TypeRef.go, List.mem_cons] at hx
    rcases hx with rfl | hx
    · exact Relation.ReflTransGen.refl
    · obtain ⟨u, hu, hr⟩ := TypeRef.goList_reaches ts x hx
      exact hr.tail (TypeRef.Child.fn hu)
  | TypeRef.RawPtr t m => by
    intro x hx
    simp only [TypeRef.go, List.mem_cons] at hx
    rcases hx with rfl | hx
    · exact Relation.ReflTransGen.refl
    · exact (TypeRef.mem_go_reaches t x hx).tail TypeRef.Child.rawPtr
  | TypeRef.Reference t m => by
    intro x hx
    simp only [TypeRef.go, List.mem_cons] at hx
    rcases hx with rfl | hx
    · exact Relation.ReflTransGen.refl
    · exact (TypeRef.mem_go_reaches t x hx).tail TypeRef.Child.ref
  | TypeRef.Array t => by
    intro x hx
    simp only [TypeRef.go, List.mem_cons] at hx
    rcases hx with rfl | hx
    · exact Relation.ReflTransGen.refl
    · exact (TypeRef.mem_go_reaches t x hx).tail TypeRef.Child.array
  | TypeRef.Slice t => by
    intro x hx
    simp only [TypeRef.go, List.mem_cons] at hx
    rcases hx with rfl | hx
    · exact Relation.ReflTransGen.refl
    · exact (TypeRef.mem_go_reaches t x hx).tail TypeRef.Child.slice
  | TypeRef.ImplTrait bs => by
    intro x hx
    simp only [TypeRef.go, List.mem_cons] at hx
    rcases hx with rfl | hx
    · exact Relation.ReflTransGen.refl
    · obtain ⟨p, hp, u, hd, hr⟩ := TypeRef.goBounds_reaches bs x hx
      exact hr.tail (TypeRef.Child.implTrait hp hd)
  | TypeRef.DynTrait bs => by
    intro x hx
    simp only [TypeRef.go, List.mem_cons] at hx
    rcases hx with rfl | hx
    · exact Relation.ReflTransGen.refl
    · obtain ⟨p, hp, u, hd, hr⟩ := TypeRef.goBounds_reaches bs x hx
      exact hr.tail (TypeRef.Child.dynTrait hp hd)
  | TypeRef.Path p => by
    intro x hx
    simp only [TypeRef.go, List.mem_cons] at hx
    rcases hx with rfl | hx
    · exact Relation.ReflTransGen.refl
    · obtain ⟨u, hd, hr⟩ := TypeRef.go_path_reaches p x hx
      exact hr.tail (TypeRef.Child.path hd)

/-- List version of `mem_go_reaches`. -/
theorem TypeRef.goList_reaches : (ts : List TypeRef) → ∀ x, x ∈ TypeRef.goList ts →
    ∃ u ∈ ts, Relation.ReflTransGen TypeRef.Child x u
  | [] => by intro x hx; simp [TypeRef.goList] at hx
  | t :: ts => by
    intro x hx
    simp only [TypeRef.goList, List.mem_append] at hx
    rcases hx with hx | hx
    · exact ⟨t, List.mem_cons_self t ts, TypeRef.mem_go_reaches t x hx⟩
    · obtain ⟨u, hu, hr⟩ := TypeRef.goList_reaches ts x hx
      exact ⟨u, List.mem_cons_of_mem t hu, hr⟩

/-- Bound-list version of `mem_go_reaches`. -/
theorem TypeRef.goBounds_reaches : (bs : List TypeBound) → ∀ x, x ∈ TypeRef.goBounds bs →
    ∃ p, TypeBound.Path p ∈ bs ∧
      ∃ u, Path.hasDirect p u ∧ Relation.ReflTransGen TypeRef.Child x u
  | [] => by intro x hx; simp [TypeRef.goBounds] at hx
  | TypeBound.Path p :: bs => by
    intro x hx
    simp only [TypeRef.goBounds, List.mem_append] at hx
    rcases hx with hx | hx
    · obtain ⟨u, hd, hr⟩ := TypeRef.go_path_reaches p x hx
      exact ⟨p, List.mem_cons_self _ _, u, hd, hr⟩
    · obtain ⟨q, hq, u, hd, hr⟩ := TypeRef.goBounds_reaches bs x hx
      exact ⟨q, List.mem_cons_of_mem _ hq, u, hd, hr⟩
  | TypeBound.Error :: bs => by
    intro x hx
    simp only [TypeRef.goBounds] at hx
    obtain ⟨q, hq, u, hd, hr⟩ := TypeRef.goBounds_reaches bs x hx
    exact ⟨q, List.mem_cons_of_mem _ hq, u, hd, hr⟩

/-- Path version of `mem_go_reaches`. -/
theorem TypeRef.go_path_reaches : (p : RaHirDef.Path) → ∀ x, x ∈ TypeRef.go_path p →
    ∃ u, Path.hasDirect p u ∧ Relation.ReflTransGen TypeRef.Child x u
  | Path.mk none ss => by
    intro x hx
    simp only [TypeRef.go_path, List.nil_append] at hx
    obtain ⟨u, hsd, hr⟩ := TypeRef.goSegments_reaches ss x hx
    exact ⟨u, Or.inr hsd, hr⟩
  | Path.mk (some t) ss => by
    intro x hx
    simp only [TypeRef.go_path, List.mem_append] at hx
    rcases hx with hx | hx
    · exact ⟨t, Or.inl rfl, TypeRef.mem_go_reaches t x hx⟩
    · obtain ⟨u, hsd, hr⟩ := TypeRef.goSegments_reaches ss x hx
      exact ⟨u, Or.inr hsd, hr⟩

/-- Segment-list version of `mem_go_reaches`. -/
theorem TypeRef.goSegments_reaches : (ss : List PathSegment) →
    ∀ x, x ∈ TypeRef.goSegments ss →
      ∃ u, segsDirect ss u ∧ Relation.ReflTransGen TypeRef.Child x u
  | [] => by intro x hx; simp [TypeRef.goSegments] at hx
  | PathSegment.mk none :: ss => by
    intro x hx
    simp only [TypeRef.goSegments] at hx
    obtain ⟨u, ⟨seg, hseg, args, bnds, hseg2, hin⟩, hr⟩ :=
      TypeRef.goSegments_reaches ss x hx
    exact ⟨u, ⟨seg, List.mem_cons_of_mem _ hseg, args, bnds, hseg2, hin⟩, hr⟩
  | PathSegment.mk (some (GenericArgsAndBindings.mk args bnds)) :: ss => by
    intro x hx
    simp only [TypeRef.goSegments, List.mem_append] at hx
    rcases hx with (hx | hx) | hx
    · obtain ⟨u, harg, hr⟩ := TypeRef.goArgs_reaches args x hx
      exact ⟨u, ⟨_, List.mem_cons_self _ _, args, bnds, rfl, Or.inl harg⟩, hr⟩
    · obtain ⟨u, nm, hb, hr⟩ := TypeRef.goBindings_reaches bnds x hx
      exact ⟨u, ⟨_, List.mem_cons_self _ _, args, bnds, rfl, Or.inr ⟨nm, hb⟩⟩, hr⟩
    · obtain ⟨u, ⟨seg, hseg, args2, bnds2, hseg2, hin⟩, hr⟩ :=
        TypeRef.goSegments_reaches ss x hx
      exact ⟨u, ⟨seg, List.mem_cons_of_mem _ hseg, args2, bnds2, hseg2, hin⟩, hr⟩

/-- Argument-list version of `mem_go_reaches`. -/
theorem TypeRef.goArgs_reaches : (args : List GenericArg) →
    ∀ x, x ∈ TypeRef.goArgs args →
      ∃ u, GenericArg.Type u ∈ args ∧ Relation.ReflTransGen TypeRef.Child x u
  | [] => by intro x hx; simp [TypeRef.goArgs] at hx
  | GenericArg.Type t :: rest => by
    intro x hx
    simp only [TypeRef.goArgs, List.mem_append] at hx
    rcases hx with hx | hx
    · exact ⟨t, List.mem_cons_self _ _, TypeRef.mem_go_reaches t x hx⟩
    · obtain ⟨u, hu, hr⟩ := TypeRef.goArgs_reaches rest x hx
      exact ⟨u, List.mem_cons_of_mem _ hu, hr⟩

/-- Binding-list version of `mem_go_reaches`. -/
theorem TypeRef.goBindings_reaches : (bnds : List (String × TypeRef)) →
    ∀ x, x ∈ TypeRef.goBindings bnds →
      ∃ u nm, (nm, u) ∈ bnds ∧ Relation.ReflTransGen TypeRef.Child x u
  | [] => by intro x hx; simp [TypeRef.goBindings] at hx
  | (nm, t) :: rest => by
    intro x hx
    simp only [TypeRef.goBindings, List.mem_append] at hx
    rcases hx with hx | hx
    · exact ⟨t, nm, List.mem_cons_self _ _, TypeRef.mem_go_reaches t x hx⟩
    · obtain ⟨u, nm2, hu, hr⟩ := TypeRef.goBindings_reaches rest x hx
      exact ⟨u, nm2, List.mem_cons_of_mem _ hu, hr⟩

end

/-- A node is visited by `walk` exactly when it is transitively
reachable from the root through the `Child` relation. -/
theorem TypeRef.reaches_iff_mem_walk (root x : TypeRef) :
    Relation.ReflTransGen TypeRef.Child x root ↔ x ∈ TypeRef.walk root := by
  constructor
  · intro h
    induction h using Relation.ReflTransGen.head_induction_on with
    | refl => exact TypeRef.self_mem_go root
    | head hstep htail ih =>
      exact TypeRef.go_trans root _ ih _ (TypeRef.child_mem_go hstep)
  · exact fun h => TypeRef.mem_go_reaches root x h

/-- Closed form of the function-pointer case of `from_ast`: parameters in
declaration order (missing parameter list means no parameters), then the
lowered return type, defaulting to the unit tuple. -/
theorem TypeRef.from_ast_fn (rt : Option (Option AstTypeRef))
    (pl : Option (List (Option AstTypeRef))) :
    TypeRef.from_ast (AstTypeRef.FnPointerType rt pl) =
      TypeRef.Fn ((pl.getD []).map TypeRef.from_ast_opt ++
        [match rt with
         | some (some r) => TypeRef.from_ast r
         | some none => TypeRef.Tuple []
         | none => TypeRef.Tuple []]) := by
  rcases rt with _ | (_ | r) <;> rcases pl with _ | ps <;>
    simp [TypeRef.from_ast, TypeRef.from_ast_opt_list_eq_map]

/-- The segment loop of `go_path`, with each segment's contribution
expressed through `List.map` and `List.flatten`. -/
theorem TypeRef.goSegments_eq_walk (ss : List PathSegment) :
    TypeRef.goSegments ss =
      (ss.map fun seg =>
        match seg with
        | PathSegment.mk none => []
        | PathSegment.mk (some (GenericArgsAndBindings.mk args bnds)) =>
          (args.map fun a =>
            match a with
            | GenericArg.Type t => TypeRef.walk t).flatten ++
          (bnds.map fun nb => TypeRef.walk nb.2).flatten).flatten := by
  rw [TypeRef.goSegments_eq_join]
  congr 1
  refine List.map_congr_left ?_
  intro seg hseg
  rcases seg with ⟨_ | ⟨args, bnds⟩⟩
  · rfl
  · simp [TypeRef.goArgs_eq_join, TypeRef.goBindings_eq_join, TypeRef.walk]

/-- Function `walk` is definitionally the inner `go`. -/
theorem TypeRef.walk_eq_go : TypeRef.walk = TypeRef.go := rfl

/-- C1: Totality of lowering: `TypeRef.from_ast`, `TypeRef.from_ast_opt`,
`type_bounds_from_ast` and `TypeBound.from_ast` return a value on every
parseable type or bound syntax node, however malformed; there is no
panic/abort path — the uniform failure signal is the `Error` variant. -/
theorem claim_C1_lowering_total :
    (∀ n : AstTypeRef, ∃ t : TypeRef, TypeRef.from_ast n = t) ∧
    (∀ o : Option AstTypeRef, ∃ t : TypeRef, TypeRef.from_ast_opt o = t) ∧
    (∀ o : Option AstTypeBoundList, ∃ bs : List TypeBound, type_bounds_from_ast o = bs) ∧
    (∀ b : AstTypeBound, ∃ tb : TypeBound, TypeBound.from_ast b = tb) :=
  ⟨fun _ => ⟨_, rfl⟩, fun _ => ⟨_, rfl⟩, fun _ => ⟨_, rfl⟩, fun _ => ⟨_, rfl⟩⟩

/-- C2: Function-pointer arity preservation: a function-pointer node with
`k` declared parameters lowers to `Fn l` with `l.length = k + 1`; the
first `k` elements are the parameters' ascribed types lowered in
declaration order via `from_ast_opt` (a missing ascription gives
`Error`, never a skip), and the last element is the lowered declared
return type, or `Tuple []` when no return type is declared. -/
theorem claim_C2_fn_pointer_arity :
    ∀ (rt : Option (Option AstTypeRef)) (pl : Option (List (Option AstTypeRef))),
      ∃ l : List TypeRef,
        TypeRef.from_ast (AstTypeRef.FnPointerType rt pl) = TypeRef.Fn l ∧
        l.length = (pl.getD []).length + 1 ∧
        l.take (pl.getD []).length = (pl.getD []).map TypeRef.from_ast_opt ∧
        l.getLast? = some (match rt with
          | some (some r) => TypeRef.from_ast r
          | some none => TypeRef.Tuple []
          | none => TypeRef.Tuple []) := by
  intro rt pl
  refine ⟨_, TypeRef.from_ast_fn rt pl, ?_, ?_, ?_⟩
  · simp
  · rw [← List.length_map (pl.getD []) TypeRef.from_ast_opt]
    exact List.take_left _ _
  · exact List.getLast?_concat _

/-- C3: Traversal completeness and pre-order: `walk` invokes the callback
exactly once per `TypeRef` node transitively reachable from the root
(`length = size` and the reachability characterization), visits each node
before its children (each visit list is the node followed by the
children's visit lists in payload order), and within a `Path`-rooted
branch visits the type-anchor first, then per segment in order each
generic type argument, then each associated-type binding's bound type;
the leaves `Never`, `Placeholder` and `Error` contribute no children. -/
theorem claim_C3_walk_preorder_complete :
    (∀ t : TypeRef, (TypeRef.walk t).length = TypeRef.size t) ∧
    (∀ root x : TypeRef,
      x ∈ TypeRef.walk root ↔ Relation.ReflTransGen TypeRef.Child x root) ∧
    TypeRef.walk TypeRef.Never = [TypeRef.Never] ∧
    TypeRef.walk TypeRef.Placeholder = [TypeRef.Placeholder] ∧
    TypeRef.walk TypeRef.Error = [TypeRef.Error] ∧
    (∀ ts, TypeRef.walk (TypeRef.Tuple ts) =
      TypeRef.Tuple ts :: (ts.map TypeRef.walk).flatten) ∧
    (∀ ts, TypeRef.walk (TypeRef.Fn ts) =
      TypeRef.Fn ts :: (ts.map TypeRef.walk).flatten) ∧
    (∀ t m, TypeRef.walk (TypeRef.RawPtr t m) =
      TypeRef.RawPtr t m :: TypeRef.walk t) ∧
    (∀ t m, TypeRef.walk (TypeRef.Reference t m) =
      TypeRef.Reference t m :: TypeRef.walk t) ∧
    (∀ t, TypeRef.walk (TypeRef.Array t) = TypeRef.Array t :: TypeRef.walk t) ∧
    (∀ t, TypeRef.walk (TypeRef.Slice t) = TypeRef.Slice t :: TypeRef.walk t) ∧
    (∀ bs, TypeRef.walk (TypeRef.ImplTrait bs) = TypeRef.ImplTrait bs ::
      (bs.map fun b =>
        match b with
        | TypeBound.Path p => TypeRef.go_path p
        | TypeBound.Error => []).flatten) ∧
    (∀ bs, TypeRef.walk (TypeRef.DynTrait bs) = TypeRef.DynTrait bs ::
      (bs.map fun b =>
        match b with
        | TypeBound.Path p => TypeRef.go_path p
        | TypeBound.Error => []).flatten) ∧
    (∀ p, TypeRef.walk (TypeRef.Path p) = TypeRef.Path p :: TypeRef.go_path p) ∧
    (∀ anchor ss, TypeRef.go_path (Path.mk anchor ss) =
      (match anchor with
       | some t => TypeRef.walk t
       | none => []) ++
      (ss.map fun seg =>
        match seg with
        | PathSegment.mk none => []
        | PathSegment.mk (some (GenericArgsAndBindings.mk args bnds)) =>
          (args.map fun a =>
            match a with
            | GenericArg.Type t => TypeRef.walk t).flatten ++
          (bnds.map fun nb => TypeRef.walk nb.2).flatten).flatten) := by
  refine ⟨TypeRef.go_length, fun root x => (TypeRef.reaches_iff_mem_walk root x).symm,
    by simp [TypeRef.walk, TypeRef.go], by simp [TypeRef.walk, TypeRef.go],
    by simp [TypeRef.walk, TypeRef.go], ?_, ?_, ?_, ?_, ?_, ?_, ?_, ?_, ?_, ?_⟩
  · intro ts
    simp [TypeRef.walk_eq_go, TypeRef.go, TypeRef.goList_eq_join]
  · intro ts
    simp [TypeRef.walk_eq_go, TypeRef.go, TypeRef.goList_eq_join]
  · intro t m
    simp [TypeRef.walk, TypeRef.go]
  · intro t m
    simp [TypeRef.walk, TypeRef.go]
  · intro t
    simp [TypeRef.walk, TypeRef.go]
  · intro t
    simp [TypeRef.walk, TypeRef.go]
  · intro bs
    simp [TypeRef.walk, TypeRef.go, TypeRef.goBounds_eq_join]
  · intro bs
    simp [TypeRef.walk, TypeRef.go, TypeRef.goBounds_eq_join]
  · intro p
    simp [TypeRef.walk, TypeRef.go]
  · intro anchor ss
    cases anchor <;>
      simp [TypeRef.go_path, TypeRef.walk, TypeRef.goSegments_eq_walk]

/-- C4: Lowering of an optional node: `from_ast_opt none = Error`,
`from_ast_opt (some n) = from_ast n`, and a raw-pointer node whose
pointee is absent lowers to `RawPtr Error m` with `m` determined by the
`mut` keyword. -/
theorem claim_C4_from_ast_opt :
    TypeRef.from_ast_opt none = TypeRef.Error ∧
    (∀ n : AstTypeRef, TypeRef.from_ast_opt (some n) = TypeRef.from_ast n) ∧
    (∀ b : Bool, TypeRef.from_ast (AstTypeRef.PointerType none b) =
      TypeRef.RawPtr TypeRef.Error (Mutability.from_mutable b)) := by
  refine ⟨by simp [TypeRef.from_ast_opt], fun n => by simp [TypeRef.from_ast_opt],
    fun b => by simp [TypeRef.from_ast, TypeRef.from_ast_opt]⟩

/-- C5: Parenthesis transparency: a parenthesized node lowers to exactly
the lowering of its inner type, and to `Error` when the inner type is
absent. -/
theorem claim_C5_paren_transparent :
    (∀ n : AstTypeRef, TypeRef.from_ast (AstTypeRef.ParenType (some n)) =
      TypeRef.from_ast n) ∧
    TypeRef.from_ast (AstTypeRef.ParenType none) = TypeRef.Error := by
  refine ⟨fun n => by simp [TypeRef.from_ast, TypeRef.from_ast_opt],
    by simp [TypeRef.from_ast, TypeRef.from_ast_opt]⟩

/-- C6: Order and arity preservation: a tuple node with `n` fields lowers
to `Tuple` of the fields' lowerings in declaration order (arity 0 gives
the unit type, arity 1 a genuine one-element tuple); function-pointer
parameter order and bound declaration order are preserved exactly. -/
theorem claim_C6_order_arity :
    (∀ fs : List AstTypeRef, TypeRef.from_ast (AstTypeRef.TupleType fs) =
      TypeRef.Tuple (fs.map TypeRef.from_ast)) ∧
    (∀ fs : List AstTypeRef,
      ∃ l, TypeRef.from_ast (AstTypeRef.TupleType fs) = TypeRef.Tuple l ∧
        l.length = fs.length) ∧
    TypeRef.from_ast (AstTypeRef.TupleType []) = TypeRef.unit ∧
    (∀ n : AstTypeRef, TypeRef.from_ast (AstTypeRef.TupleType [n]) =
      TypeRef.Tuple [TypeRef.from_ast n]) ∧
    (∀ (rt : Option (Option AstTypeRef)) (ps : List (Option AstTypeRef)),
      ∃ ret, TypeRef.from_ast (AstTypeRef.FnPointerType rt (some ps)) =
        TypeRef.Fn (ps.map TypeRef.from_ast_opt ++ [ret])) ∧
    (∀ tbl : AstTypeBoundList, type_bounds_from_ast (some tbl) =
      tbl.bounds.map TypeBound.from_ast) := by
  refine ⟨?_, ?_, ?_, ?_, ?_, ?_⟩
  · intro fs
    simp [TypeRef.from_ast, TypeRef.from_ast_list_eq_map]
  · intro fs
    exact ⟨fs.map TypeRef.from_ast,
      by simp [TypeRef.from_ast, TypeRef.from_ast_list_eq_map], by simp⟩
  · simp [TypeRef.from_ast, TypeRef.from_ast_list, TypeRef.unit]
  · intro n
    simp [TypeRef.from_ast, TypeRef.from_ast_list]
  · intro rt ps
    have h := TypeRef.from_ast_fn rt (some ps)
    simp only [Option.getD_some] at h
    exact ⟨_, h⟩
  · intro tbl
    simp [type_bounds_from_ast]

/-- C7: Single-bound lowering: `TypeBound.from_ast` returns
`TypeBound.Path p` exactly when the bound is a trait-path bound whose
path is present and lowers to `p`; a missing path or failed path
lowering gives `Error`, and `for`-bounds and lifetime bounds are
unconditionally `Error`. -/
theorem claim_C7_single_bound :
    (∀ (b : AstTypeBound) (p : RaHirDef.Path),
      TypeBound.from_ast b = TypeBound.Path p ↔
        ∃ ap, b = AstTypeBound.PathType (some ap) ∧ Path.from_ast ap = some p) ∧
    TypeBound.from_ast (AstTypeBound.PathType none) = TypeBound.Error ∧
    (∀ ap : AstPath, TypeBound.from_ast (AstTypeBound.PathType (some ap)) =
      ((Path.from_ast ap).map TypeBound.Path).getD TypeBound.Error) ∧
    TypeBound.from_ast AstTypeBound.ForType = TypeBound.Error ∧
    TypeBound.from_ast AstTypeBound.Lifetime = TypeBound.Error := by
  refine ⟨?_, by simp [TypeBound.from_ast], ?_, by simp [TypeBound.from_ast],
    by simp [TypeBound.from_ast]⟩
  · intro b p
    constructor
    · intro h
      cases b with
      | PathType po =>
        cases po with
        | none => simp [TypeBound.from_ast] at h
        | some ap =>
          cases hp : Path.from_ast ap with
          | none => simp [TypeBound.from_ast, hp] at h
          | some q =>
            simp only [TypeBound.from_ast, hp] at h
            cases h
            exact ⟨ap, rfl, hp⟩
      | ForType => simp [TypeBound.from_ast] at h
      | Lifetime => simp [TypeBound.from_ast] at h
    · rintro ⟨ap, rfl, hp⟩
      simp [TypeBound.from_ast, hp]
  · intro ap
    cases hp : Path.from_ast ap <;> simp [TypeBound.from_ast, hp]

/-- C8: Bound-list lowering: `type_bounds_from_ast` maps
`TypeBound.from_ast` over the syntactic bounds in declaration order, one
element per bound; an absent bound list yields the empty list. -/
theorem claim_C8_bound_list :
    (∀ tbl : AstTypeBoundList, type_bounds_from_ast (some tbl) =
      tbl.bounds.map TypeBound.from_ast) ∧
    (∀ tbl : AstTypeBoundList,
      (type_bounds_from_ast (some tbl)).length = tbl.bounds.length) ∧
    type_bounds_from_ast none = [] := by
  refine ⟨fun tbl => by simp [type_bounds_from_ast],
    fun tbl => by simp [type_bounds_from_ast],
    by simp [type_bounds_from_ast]⟩

/-- C9: Higher-ranked type approximation: a `for`-type node lowers to
exactly the lowering of its inner type node, via `from_ast_opt`. -/
theorem claim_C9_for_type :
    ∀ o : Option AstTypeRef,
      TypeRef.from_ast (AstTypeRef.ForType o) = TypeRef.from_ast_opt o := by
  intro o
  simp [TypeRef.from_ast]

/-- C10: `TypeBound.as_path` returns `some p` exactly on `Path p` and
`none` on `Error`; it is a total read-only projection. -/
theorem claim_C10_as_path :
    (∀ (b : TypeBound) (p : RaHirDef.Path),
      TypeBound.as_path b = some p ↔ b = TypeBound.Path p) ∧
    TypeBound.as_path TypeBound.Error = none := by
  refine ⟨?_, by simp [TypeBound.as_path]⟩
  intro b p
  cases b <;> simp [TypeBound.as_path]

end RaHirDef
